import Mathlib

/-!
Verification of the package-identity core of the arch-zst-backup repository:
filename parsing (`src/modules/package_parser.py`), version comparison
(`src/modules/version_comparator.py`) and deduplication
(`src/business/package_deduplicator.py`).

Python strings are modelled as `List Char` (Python compares strings by code
point, which coincides with `Char` order); Python `str.split(sep)` is
`splitChar`, `sep.join` is `joinChar`.  Python dicts that carry package data
are modelled as structures with one `Option String` field per key the code
reads (a missing key is `none`).  Regular expressions used by the source are
modelled by explicit character-class recognizers over ASCII (the source runs
them on ASCII package filenames).
-/

/-- Python `s.split(sep)` for a one-character separator: splits on every
occurrence, `"".split(sep) = [""]`, separators at the ends produce empty
pieces. -/
def splitChar (sep : Char) : List Char → List (List Char)
  | [] => [[]]
  | c :: cs =>
    match splitChar sep cs with
    | [] => [[]]
    | h :: t => if c = sep then [] :: h :: t else (c :: h) :: t

/-- Python `sep.join(parts)` for a one-character separator. -/
def joinChar (sep : Char) : List (List Char) → List Char
  | [] => []
  | [x] => x
  | x :: y :: t => x ++ sep :: joinChar sep (y :: t)

/-- Three-way lexicographic comparison of char lists by code point: the model
of Python's `<`/`>` on strings. -/
def lexCmp : List Char → List Char → Ordering
  | [], [] => Ordering.eq
  | [], _ :: _ => Ordering.lt
  | _ :: _, [] => Ordering.gt
  | x :: xs, y :: ys =>
    if x < y then Ordering.lt
    else if y < x then Ordering.gt
    else lexCmp xs ys

/-- Python `int(s)` on an all-digit string. -/
def toNatC (l : List Char) : Nat := l.foldl (fun n c => n * 10 + (c.toNat - 48)) 0

/-- Python `s.isdigit()` restricted to ASCII: nonempty and all characters
are decimal digits. -/
def isdigitPy (l : List Char) : Bool := !l.isEmpty && l.all (·.isDigit)

/-- Python `s.split(sep, 1)` when at least one separator occurs: the piece
before the first separator and everything after it. -/
def splitFirst (sep : Char) : List Char → List Char × List Char
  | [] => ([], [])
  | c :: cs =>
    if c = sep then ([], cs)
    else
      let p := splitFirst sep cs
      (c :: p.1, p.2)

/- ### Version comparator (`src/modules/version_comparator.py`) -/

/-- A package record whose `epoch`, `pkgver` and `relver` keys are all
present: the shape `VersionComparator.compare_versions` reads. -/
structure Pkg where
  epoch : String
  pkgver : String
  relver : String
deriving DecidableEq

/-- The `for v1, v2 in zip(ver1, ver2)` loop body of `compare_versions`:
first differing component decides, numerically when both sides are
all-digit, otherwise by string comparison; `none` when the zip is
exhausted without a difference. -/
def loopCmp : List (List Char) → List (List Char) → Option Int
  | x :: xs, y :: ys =>
    if x ≠ y then
      some (if isdigitPy x && isdigitPy y then
              (if toNatC x > toNatC y then 1 else -1)
            else (if lexCmp x y = Ordering.gt then 1 else -1))
    else loopCmp xs ys
  | _, _ => none

/-- One version-segment comparison of `compare_versions`: the zip loop, then
the length tie-break; `0` encodes the Python fall-through (the loop and the
length check only ever return `1` or `-1`). -/
def verPartCmp (xs ys : List (List Char)) : Int :=
  match loopCmp xs ys with
  | some r => r
  | none =>
    if xs.length ≠ ys.length then (if xs.length > ys.length then 1 else -1) else 0

/-- The components of a dotted version string: Python `s.split('.')`. -/
def vparts (s : String) : List (List Char) := splitChar '.' s.data

/-- `VersionComparator.compare_versions`: epoch compared as plain strings,
then `pkgver` components, then `relver` components. -/
def compare_versions (pkg1 pkg2 : Pkg) : Int :=
  if pkg1.epoch ≠ pkg2.epoch then
    (if lexCmp pkg1.epoch.data pkg2.epoch.data = Ordering.gt then 1 else -1)
  else
    let v := verPartCmp (vparts pkg1.pkgver) (vparts pkg2.pkgver)
    if v ≠ 0 then v
    else verPartCmp (vparts pkg1.relver) (vparts pkg2.relver)

/-- `VersionComparator.find_latest`: left-to-right fold keeping the first
element unless a later one compares strictly greater. -/
def find_latest (packages : List Pkg) : Option Pkg :=
  match packages with
  | [] => none
  | p0 :: rest =>
    some (rest.foldl (fun latest pkg =>
      if compare_versions pkg latest > 0 then pkg else latest) p0)

example : compare_versions ⟨"0", "1.2", "1"⟩ ⟨"0", "1.10", "1"⟩ = -1 := by decide
example : compare_versions ⟨"0", "9", "1"⟩ ⟨"0", "10", "1"⟩ = -1 := by decide
example : compare_versions ⟨"0", "10", "1"⟩ ⟨"0", "1a", "1"⟩ = -1 := by decide
example : compare_versions ⟨"0", "9", "1"⟩ ⟨"0", "1a", "1"⟩ = 1 := by decide
example : compare_versions ⟨"9", "1", "1"⟩ ⟨"10", "1", "1"⟩ = 1 := by decide

/- ### Filename parser (`src/modules/package_parser.py`) -/

/-- The result record of `PackageParser.parse_filename`. -/
structure PkgRec where
  pkgname : String
  pkgver : String
  epoch : String
  relver : String
  arch : String
  location : String
  filename : String
deriving DecidableEq

/-- The characters of the literal suffix `.pkg.tar.zst`. -/
def zstSuffix : List Char := ".pkg.tar.zst".data

/-- Python `filename.endswith('.pkg.tar.zst')`. -/
def endsWithZst (l : List Char) : Bool := decide (l.drop (l.length - 12) = zstSuffix)

/-- Python `os.path.basename`: everything after the last `/`. -/
def basenameC (l : List Char) : List Char := (splitChar '/' l).getLastD []

/-- ASCII alphanumeric: the class `[a-zA-Z0-9]` of the source's regexes. -/
def isAlnum (c : Char) : Bool :=
  ('a' ≤ c && c ≤ 'z') || ('A' ≤ c && c ≤ 'Z') || c.isDigit

/-- The class `[a-zA-Z0-9+._-]` of the source's package-name regex. -/
def isNameChar (c : Char) : Bool :=
  isAlnum c || c = '+' || c = '.' || c = '_' || c = '-'

/-- The regex `^\d+(\.\d+)?$` validating `pkgrel` (ASCII `\d`). -/
def relOk (l : List Char) : Bool :=
  match splitChar '.' l with
  | [a] => isdigitPy a
  | [a, b] => isdigitPy a && isdigitPy b
  | _ => false

/-- The regex `^[a-z0-9_]+$` used to re-validate `arch` in the parser's
fallback branch. -/
def archOk (l : List Char) : Bool :=
  !l.isEmpty && l.all (fun c => ('a' ≤ c && c ≤ 'z') || c.isDigit || c = '_')

/-- The version-boundary test of the parser's scan: the segment starts with a
digit (`re.match(r'^\d', part)`) or contains `:`. -/
def isVersionPart (p : List Char) : Bool :=
  (match p with | c :: _ => c.isDigit | [] => false) || ':' ∈ p

/-- Index of the first version-like segment (`version_start` in the source);
equals the length of the list when no segment qualifies. -/
def findVStart : List (List Char) → Nat
  | [] => 0
  | p :: ps => if isVersionPart p then 0 else findVStart ps + 1

/-- `str(Path(filename).parent)` as read by the parser, modelled for paths
without redundant separators: `.` when there is no `/`, otherwise the part
before the last `/`. -/
def dirnameC (l : List Char) : List Char :=
  if '/' ∈ l then joinChar '/' ((splitChar '/' l).dropLast) else ".".data

/-- The tail of `parse_filename` from `pkgname = '-'.join(...)` on: the
empty/non-alphanumeric pkgname fallback (regex
`^([a-zA-Z0-9][a-zA-Z0-9+._-]*)` over the stem), then the epoch split
`version_part.split(':', 1)` defaulting the epoch to `"0"`. -/
def finishParse (pkgname_parts : List (List Char)) (version_part arch pkgrel
    base_name filename : List Char) : Option PkgRec :=
  let pkgname0 := if pkgname_parts.isEmpty then "unknown".data
                  else joinChar '-' pkgname_parts
  let pkgname? :=
    if pkgname0.isEmpty || pkgname0.all (fun c => !(isAlnum c)) then
      match base_name with
      | c :: cs => if isAlnum c then some (c :: cs.takeWhile isNameChar) else none
      | [] => none
    else some pkgname0
  match pkgname? with
  | none => none
  | some nm =>
    let ep := if ':' ∈ version_part then splitFirst ':' version_part
              else ("0".data, version_part)
    some { pkgname := String.mk nm
           pkgver := String.mk ep.2
           epoch := String.mk ep.1
           relver := String.mk pkgrel
           arch := String.mk arch
           location := String.mk (dirnameC filename)
           filename := String.mk filename }

/-- `PackageParser.parse_filename` on the characters of the filename.
Failure paths (`return None` after a logged error) are `none`.  The
`version_start == len(remaining_parts)` fallback branch, including its
quirky re-validation of `arch`, is reproduced as written. -/
def parseCore (filename : List Char) : Option PkgRec :=
  if !endsWithZst filename then none
  else
    let bn := basenameC filename
    let base_name := bn.take (bn.length - 12)
    let parts := splitChar '-' base_name
    if parts.length < 4 then none
    else
      let arch := parts.getLastD []
      let pkgrel := parts.getD (parts.length - 2) []
      if !relOk pkgrel then none
      else
        let remaining := parts.take (parts.length - 2)
        let vstart := findVStart remaining
        if vstart = remaining.length then
          if remaining.length ≥ 2 then
            let pp := remaining.take (remaining.length - 2)
            let vp := remaining.getD (remaining.length - 2) []
            if !archOk arch then
              if remaining.length ≥ 3 then
                finishParse (remaining.take (remaining.length - 3))
                  (joinChar '-' ((remaining.drop (remaining.length - 3)).take 2))
                  (remaining.getLastD []) pkgrel base_name filename
              else finishParse pp vp arch pkgrel base_name filename
            else finishParse pp vp arch pkgrel base_name filename
          else none
        else
          finishParse (remaining.take vstart)
            (joinChar '-' (remaining.drop vstart)) arch pkgrel base_name filename

/-- `PackageParser.parse_filename` on a string. -/
def parse_filename (s : String) : Option PkgRec := parseCore s.data

example : parse_filename "bar-2:3.4-2-any.pkg.tar.zst" =
    some ⟨"bar", "3.4", "2", "2", "any", ".", "bar-2:3.4-2-any.pkg.tar.zst"⟩ := by decide
example : parse_filename "foo-1.0-1-x86_64.pkg.tar.zst" =
    some ⟨"foo", "1.0", "0", "1", "x86_64", ".", "foo-1.0-1-x86_64.pkg.tar.zst"⟩ := by decide
example : parse_filename "notapackage.txt" = none := by decide
example : parse_filename "a-1b-2-1-any.pkg.tar.zst" =
    some ⟨"a", "1b-2", "0", "1", "any", ".", "a-1b-2-1-any.pkg.tar.zst"⟩ := by decide
example : parse_filename "/tmp/x/foo-1.0-1-any.pkg.tar.zst" =
    some ⟨"foo", "1.0", "0", "1", "any", "/tmp/x", "/tmp/x/foo-1.0-1-any.pkg.tar.zst"⟩ := by decide

/- ### Deduplicator (`src/business/package_deduplicator.py`) -/

/-- A package dict as read by `PackageDeduplicator`: one `Option String` per
key the code accesses with `.get` (a missing key is `none`).  Python dict
equality (`pkg != latest`) is modelled by structure equality over these
fields. -/
structure PkgD where
  pkgname : Option String := none
  name : Option String := none
  pkgver : Option String := none
  version : Option String := none
  relver : Option String := none
  pkgrel : Option String := none
  epoch : Option String := none
  arch : Option String := none
  filename : Option String := none
  location : Option String := none
deriving DecidableEq

/-- Python `a or b` on the results of two `dict.get` calls: `b` whenever `a`
is `None` or the empty string. -/
def pyOrOpt (a b : Option String) : Option String :=
  match a with
  | some s => if s = "" then b else some s
  | none => b

/-- Python truthiness of a `dict.get` result: present and nonempty. -/
def truthy (o : Option String) : Bool :=
  match o with
  | some s => !(s = "")
  | none => false

/-- Python `pkg.get('epoch') or '0'`. -/
def pyOrDefault (a : Option String) (d : String) : String :=
  match pyOrOpt a (some d) with
  | some s => s
  | none => d

/-- The grouping key of `group_packages_by_name_and_arch`:
`(pkg.get('pkgname') or pkg.get('name'), pkg.get('arch'))`, or `none` when
either component is falsy (the record is skipped). -/
def pkgKey (p : PkgD) : Option (String × String) :=
  match pyOrOpt p.pkgname p.name, p.arch with
  | some n, some a => if n ≠ "" ∧ a ≠ "" then some (n, a) else none
  | _, _ => none

/-- A grouped-package map: the insertion-ordered Python dict
`(name, arch) -> list of packages`, as an association list. -/
abbrev GroupMap := List ((String × String) × List PkgD)

/-- `grouped.setdefault(key, []).append(pkg)`: append to the existing entry
for the key, or add a new entry at the end. -/
def addToGroup (g : GroupMap) (k : String × String) (p : PkgD) : GroupMap :=
  match g with
  | [] => [(k, [p])]
  | (k', l) :: t => if k' = k then (k', l ++ [p]) :: t else (k', l) :: addToGroup t k p

/-- One iteration of the grouping loop: skipped records only bump the
counter, keyed records are appended to their group. -/
def groupStep (acc : GroupMap × Nat) (p : PkgD) : GroupMap × Nat :=
  match pkgKey p with
  | none => (acc.1, acc.2 + 1)
  | some k => (addToGroup acc.1 k p, acc.2)

/-- `PackageDeduplicator.group_packages_by_name_and_arch`: returns the
grouped map and the count of skipped (key-less) records. -/
def group_packages_by_name_and_arch (packages : List PkgD) : GroupMap × Nat :=
  packages.foldl groupStep ([], 0)

/-- The normalized `pkg_for_compare` dict built by `find_latest_package`
for a package with usable version info, paired with the original record
(`valid_pkgs` entries).  Only the keys `compare_versions` reads are kept:
the Python dict also carries `pkgname`/`arch`, which the comparator never
touches. -/
def mkValid (p : PkgD) : Option (PkgD × Pkg) :=
  let v := pyOrOpt p.pkgver p.version
  let r := pyOrOpt p.relver p.pkgrel
  if truthy v && truthy r then
    match v, r with
    | some vs, some rs => some (p, ⟨pyOrDefault p.epoch "0", vs, rs⟩)
    | _, _ => none
  else none

/-- `PackageDeduplicator.find_latest_package`: filter to packages with
usable version info, then the same first-wins fold as `find_latest`, run on
the normalized comparison objects; returns the original record. -/
def find_latest_package (packages : List PkgD) : Option PkgD :=
  match packages.filterMap mkValid with
  | [] => none
  | v0 :: rest =>
    some (rest.foldl (fun latest pk =>
      if compare_versions pk.2 latest.2 > 0 then pk else latest) v0).1

/-- The per-group body of `find_packages_to_delete`: groups of size at most
one contribute nothing; a group whose latest cannot be determined is
skipped; otherwise every member not dict-equal to the latest is marked. -/
def groupDeletions (pkgs : List PkgD) : List PkgD :=
  if pkgs.length > 1 then
    match find_latest_package pkgs with
    | none => []
    | some latest => pkgs.filter (fun p => decide (p ≠ latest))
  else []

/-- `PackageDeduplicator.find_packages_to_delete`: concatenation of the
per-group deletion lists in map order. -/
def find_packages_to_delete (grouped : GroupMap) : List PkgD :=
  grouped.flatMap (fun g => groupDeletions g.2)

example :
    group_packages_by_name_and_arch
      [{ name := some "foo", arch := some "x86_64", version := some "1.0" },
       { pkgname := some "foo", arch := some "x86_64", pkgver := some "1.1" },
       { name := some "bar", arch := none }] =
    ([(("foo", "x86_64"),
       [{ name := some "foo", arch := some "x86_64", version := some "1.0" },
        { pkgname := some "foo", arch := some "x86_64", pkgver := some "1.1" }])], 1) := by
  decide

example :
    find_latest_package
      [{ name := some "foo", arch := some "x86_64", version := some "1.0",
         pkgrel := some "1" },
       { pkgname := some "foo", arch := some "x86_64", pkgver := some "1.1",
         relver := some "1" }] =
    some { pkgname := some "foo", arch := some "x86_64", pkgver := some "1.1",
           relver := some "1" } := by decide

/- ### Order lemmas for `lexCmp` -/

theorem lexCmp_eq_iff (a : List Char) : ∀ b, lexCmp a b = Ordering.eq ↔ a = b := by
  induction a with
  | nil => intro b; cases b <;> simp [lexCmp]
  | cons x xs ih =>
    intro b
    cases b with
    | nil => simp [lexCmp]
    | cons y ys =>
      rcases lt_trichotomy x y with h | h | h
      · simp [lexCmp, h, ne_of_lt h]
      · subst h; simp [lexCmp, lt_irrefl, ih]
      · simp [lexCmp, h, not_lt_of_gt h, (ne_of_lt h).symm]

theorem lexCmp_swap (a : List Char) : ∀ b, lexCmp b a = (lexCmp a b).swap := by
  induction a with
  | nil => intro b; cases b <;> simp [lexCmp, Ordering.swap]
  | cons x xs ih =>
    intro b
    cases b with
    | nil => simp [lexCmp, Ordering.swap]
    | cons y ys =>
      rcases lt_trichotomy x y with h | h | h
      · simp [lexCmp, h, not_lt_of_gt h, Ordering.swap]
      · subst h; simp [lexCmp, lt_irrefl, ih]
      · simp [lexCmp, h, not_lt_of_gt h, Ordering.swap]

theorem lexCmp_trans_lt (a : List Char) :
    ∀ b c, lexCmp a b = Ordering.lt → lexCmp b c = Ordering.lt →
      lexCmp a c = Ordering.lt := by
  induction a with
  | nil =>
    intro b c hab hbc
    cases b with
    | nil => exact hbc
    | cons y ys =>
      cases c with
      | nil => simp [lexCmp] at hbc
      | cons z zs => simp [lexCmp]
  | cons x xs ih =>
    intro b c hab hbc
    cases b with
    | nil => simp [lexCmp] at hab
    | cons y ys =>
      cases c with
      | nil => simp [lexCmp] at hbc
      | cons z zs =>
        simp only [lexCmp] at hab hbc ⊢
        rcases lt_trichotomy x y with h1 | h1 | h1
        · rcases lt_trichotomy y z with h2 | h2 | h2
          · simp [lt_trans h1 h2]
          · subst h2; simp [h1]
          · rw [if_neg (not_lt_of_gt h2), if_pos h2] at hbc; cases hbc
        · subst h1
          rcases lt_trichotomy x z with h2 | h2 | h2
          · simp [h2]
          · subst h2
            rw [if_neg (lt_irrefl x), if_neg (lt_irrefl x)] at hab hbc ⊢
            exact ih _ _ hab hbc
          · rw [if_neg (not_lt_of_gt h2), if_pos h2] at hbc; cases hbc
        · rw [if_neg (not_lt_of_gt h1), if_pos h1] at hab; cases hab

/- ### The numeric comparison key -/

/-- The zip loop of `compare_versions` specialised to canonical numeric
components: only the numeric values matter. -/
def natLoopCmp : List Nat → List Nat → Option Int
  | x :: xs, y :: ys =>
    if x ≠ y then some (if x > y then 1 else -1) else natLoopCmp xs ys
  | _, _ => none

/-- Zip loop plus length tie-break on numeric component lists, with `0` as
the all-equal outcome. -/
def natSegCmp (xs ys : List Nat) : Int :=
  match natLoopCmp xs ys with
  | some r => r
  | none =>
    if xs.length ≠ ys.length then (if xs.length > ys.length then 1 else -1) else 0

theorem natSegCmp_nil_right (xs : List Nat) :
    natSegCmp xs [] = if xs.length = 0 then 0 else 1 := by
  cases xs <;> simp [natSegCmp, natLoopCmp]

theorem natSegCmp_nil_left (ys : List Nat) :
    natSegCmp [] ys = if ys.length = 0 then 0 else -1 := by
  cases ys <;> simp [natSegCmp, natLoopCmp]

theorem natSegCmp_cons (x y : Nat) (xs ys : List Nat) :
    natSegCmp (x :: xs) (y :: ys) =
      if x = y then natSegCmp xs ys else if x > y then 1 else -1 := by
  by_cases h : x = y
  · subst h
    rw [if_pos rfl]
    unfold natSegCmp
    have hl : natLoopCmp (x :: xs) (x :: ys) = natLoopCmp xs ys := by
      simp [natLoopCmp]
    rw [hl]
    cases hc : natLoopCmp xs ys with
    | some r => rfl
    | none => simp [List.length_cons]
  · rw [if_neg h]
    unfold natSegCmp
    simp [natLoopCmp, h]

theorem natSegCmp_range (xs : List Nat) :
    ∀ ys, natSegCmp xs ys = -1 ∨ natSegCmp xs ys = 0 ∨ natSegCmp xs ys = 1 := by
  induction xs with
  | nil =>
    intro ys
    cases ys <;> simp [natSegCmp, natLoopCmp]
  | cons x xs ih =>
    intro ys
    cases ys with
    | nil => simp [natSegCmp, natLoopCmp]
    | cons y ys =>
      by_cases h : x = y
      · subst h
        have := ih ys
        simpa [natSegCmp, natLoopCmp] using this
      · by_cases h2 : x > y <;> simp [natSegCmp, natLoopCmp, h, h2]

theorem natSegCmp_eq_zero_iff (xs : List Nat) :
    ∀ ys, natSegCmp xs ys = 0 ↔ xs = ys := by
  induction xs with
  | nil => intro ys; cases ys <;> simp [natSegCmp, natLoopCmp]
  | cons x xs ih =>
    intro ys
    cases ys with
    | nil => simp [natSegCmp, natLoopCmp]
    | cons y ys =>
      by_cases h : x = y
      · subst h
        have := ih ys
        simpa [natSegCmp, natLoopCmp] using this
      · by_cases h2 : x > y <;> simp [natSegCmp, natLoopCmp, h, h2]

theorem natSegCmp_flip (xs : List Nat) :
    ∀ ys, natSegCmp ys xs = -natSegCmp xs ys := by
  induction xs with
  | nil =>
    intro ys
    cases ys <;> simp [natSegCmp, natLoopCmp]
  | cons x xs ih =>
    intro ys
    cases ys with
    | nil => simp [natSegCmp, natLoopCmp]
    | cons y ys =>
      by_cases h : x = y
      · subst h
        have := ih ys
        simpa [natSegCmp, natLoopCmp] using this
      · rcases lt_or_gt_of_ne h with h2 | h2
        · simp [natSegCmp, natLoopCmp, h, Ne.symm h, h2, not_lt_of_gt h2]
        · simp [natSegCmp, natLoopCmp, h, Ne.symm h, h2, not_lt_of_gt h2]

theorem natSegCmp_trans_lt (xs : List Nat) :
    ∀ ys zs, natSegCmp xs ys = -1 → natSegCmp ys zs = -1 →
      natSegCmp xs zs = -1 := by
  induction xs with
  | nil =>
    intro ys zs hab hbc
    cases ys with
    | nil => exact hbc
    | cons y ys =>
      cases zs with
      | nil =>
        rw [natSegCmp_nil_right] at hbc
        split at hbc <;> omega
      | cons z zs => rw [natSegCmp_nil_left]; simp
  | cons x xs ih =>
    intro ys zs hab hbc
    cases ys with
    | nil =>
      rw [natSegCmp_nil_right] at hab
      split at hab <;> omega
    | cons y ys =>
      cases zs with
      | nil =>
        rw [natSegCmp_nil_right] at hbc
        split at hbc <;> omega
      | cons z zs =>
        rw [natSegCmp_cons] at hab hbc ⊢
        by_cases h1 : x = y
        · subst h1
          rw [if_pos rfl] at hab
          by_cases h2 : x = z
          · subst h2
            rw [if_pos rfl] at hbc ⊢
            exact ih ys zs hab hbc
          · rw [if_neg h2] at hbc ⊢
            exact hbc
        · rw [if_neg h1] at hab
          by_cases h2 : y = z
          · subst h2
            rw [if_neg h1]
            exact hab
          · rw [if_neg h2] at hbc
            have hxy : x < y := by
              by_cases h : x > y
              · rw [if_pos h] at hab; omega
              · omega
            have hyz : y < z := by
              by_cases h : y > z
              · rw [if_pos h] at hbc; omega
              · omega
            have hxz : x < z := lt_trans hxy hyz
            rw [if_neg (ne_of_lt hxz), if_neg (not_lt_of_gt hxz)]

theorem natSegCmp_trans_le (xs ys zs : List Nat)
    (hab : natSegCmp xs ys ≠ 1) (hbc : natSegCmp ys zs ≠ 1) :
    natSegCmp xs zs ≠ 1 := by
  rcases natSegCmp_range xs ys with h1 | h1 | h1
  · rcases natSegCmp_range ys zs with h2 | h2 | h2
    · have := natSegCmp_trans_lt xs ys zs h1 h2; omega
    · have h3 : ys = zs := (natSegCmp_eq_zero_iff ys zs).mp h2
      subst h3; omega
    · exact absurd h2 hbc
  · have h3 : xs = ys := (natSegCmp_eq_zero_iff xs ys).mp h1
    subst h3; exact hbc
  · exact absurd h1 hab

/- ### Canonical numeric components -/

/-- A canonical decimal numeral: a nonempty all-digit string that is the
standard representation of its value (no leading zeros).  On such
components the mixed numeric/string comparison of `compare_versions` is
exactly numeric comparison. -/
def canonC (l : List Char) : Bool :=
  isdigitPy l && decide (l = (Nat.repr (toNatC l)).data)

/-- Every dot component of the string is a canonical numeral. -/
def canonVer (s : String) : Bool := (vparts s).all canonC

/-- Both the `pkgver` and the `relver` of the record consist of canonical
numeric components. -/
def canonPkg (p : Pkg) : Bool := canonVer p.pkgver && canonVer p.relver

/-- The numeric component list of a dotted version string. -/
def nkey (s : String) : List Nat := (vparts s).map toNatC

theorem canonC_spec {l : List Char} (h : canonC l = true) :
    isdigitPy l = true ∧ l = (Nat.repr (toNatC l)).data := by
  simpa [canonC] using h

theorem canonC_inj {x y : List Char} (hx : canonC x = true) (hy : canonC y = true)
    (h : toNatC x = toNatC y) : x = y := by
  rw [(canonC_spec hx).2, (canonC_spec hy).2, h]

theorem loopCmp_canon (xs : List (List Char)) :
    ∀ ys, (∀ p ∈ xs, canonC p = true) → (∀ p ∈ ys, canonC p = true) →
      loopCmp xs ys = natLoopCmp (xs.map toNatC) (ys.map toNatC) := by
  induction xs with
  | nil =>
    intro ys _ _
    cases ys <;> rfl
  | cons x xs ih =>
    intro ys hxs hys
    cases ys with
    | nil => rfl
    | cons y ys =>
      have hx : canonC x = true := hxs x (by simp)
      have hy : canonC y = true := hys y (by simp)
      by_cases h : x = y
      · subst h
        have h2 : toNatC x ≠ toNatC x → False := fun h => h rfl
        simp only [loopCmp, natLoopCmp, List.map_cons, ne_eq, not_true_eq_false,
          if_false, ite_not, if_pos rfl]
        exact ih ys (fun p hp => hxs p (by simp [hp])) (fun p hp => hys p (by simp [hp]))
      · have hn : toNatC x ≠ toNatC y := fun hc => h (canonC_inj hx hy hc)
        simp only [loopCmp, natLoopCmp, List.map_cons, ne_eq, h, not_false_eq_true,
          if_true, hn, (canonC_spec hx).1, (canonC_spec hy).1, Bool.and_self]

theorem verPartCmp_canon (xs ys : List (List Char))
    (hxs : ∀ p ∈ xs, canonC p = true) (hys : ∀ p ∈ ys, canonC p = true) :
    verPartCmp xs ys = natSegCmp (xs.map toNatC) (ys.map toNatC) := by
  unfold verPartCmp natSegCmp
  rw [loopCmp_canon xs ys hxs hys]
  cases natLoopCmp (xs.map toNatC) (ys.map toNatC) with
  | some r => rfl
  | none => simp

/-- The purely numeric comparison key: what `compare_versions` computes on
records whose version components are canonical numerals. -/
def cmpKey (p q : Pkg) : Int :=
  if p.epoch ≠ q.epoch then
    (if lexCmp p.epoch.data q.epoch.data = Ordering.gt then 1 else -1)
  else
    let v := natSegCmp (nkey p.pkgver) (nkey q.pkgver)
    if v ≠ 0 then v else natSegCmp (nkey p.relver) (nkey q.relver)

theorem canonVer_parts {s : String} (h : canonVer s = true) :
    ∀ p ∈ vparts s, canonC p = true := by
  simpa [canonVer, List.all_eq_true] using h

theorem compare_versions_canon {p q : Pkg} (hp : canonPkg p = true)
    (hq : canonPkg q = true) : compare_versions p q = cmpKey p q := by
  have hp1 : canonVer p.pkgver = true := by
    simp [canonPkg] at hp; exact hp.1
  have hp2 : canonVer p.relver = true := by
    simp [canonPkg] at hp; exact hp.2
  have hq1 : canonVer q.pkgver = true := by
    simp [canonPkg] at hq; exact hq.1
  have hq2 : canonVer q.relver = true := by
    simp [canonPkg] at hq; exact hq.2
  unfold compare_versions cmpKey
  by_cases he : p.epoch = q.epoch
  · simp only [he, ne_eq, not_true_eq_false, if_false, ite_not, if_pos rfl]
    rw [verPartCmp_canon _ _ (canonVer_parts hp1) (canonVer_parts hq1),
      verPartCmp_canon _ _ (canonVer_parts hp2) (canonVer_parts hq2)]
    rfl
  · simp [he]

theorem lexCmp_ne_eq_of_ne {e1 e2 : String} (h : e1 ≠ e2) :
    lexCmp e1.data e2.data ≠ Ordering.eq := by
  intro hc
  exact h (String.ext ((lexCmp_eq_iff e1.data e2.data).mp hc))

theorem cmpKey_range (p q : Pkg) :
    cmpKey p q = -1 ∨ cmpKey p q = 0 ∨ cmpKey p q = 1 := by
  unfold cmpKey
  by_cases he : p.epoch = q.epoch
  · simp only [he, ne_eq, not_true_eq_false, if_false, ite_not, if_pos rfl]
    by_cases hv : natSegCmp (nkey p.pkgver) (nkey q.pkgver) = 0
    · simpa [hv] using natSegCmp_range (nkey p.relver) (nkey q.relver)
    · simpa [hv] using natSegCmp_range (nkey p.pkgver) (nkey q.pkgver)
  · by_cases hl : lexCmp p.epoch.data q.epoch.data = Ordering.gt <;> simp [he, hl]

theorem cmpKey_refl (p : Pkg) : cmpKey p p = 0 := by
  unfold cmpKey
  simp [natSegCmp_eq_zero_iff]

theorem cmpKey_flip (p q : Pkg) : cmpKey q p = -cmpKey p q := by
  unfold cmpKey
  by_cases he : p.epoch = q.epoch
  · simp only [he, ne_eq, not_true_eq_false, if_false, ite_not, if_pos rfl]
    rw [natSegCmp_flip (nkey p.pkgver) (nkey q.pkgver),
      natSegCmp_flip (nkey p.relver) (nkey q.relver)]
    by_cases hv : natSegCmp (nkey p.pkgver) (nkey q.pkgver) = 0
    · simp [hv]
    · have hv2 : -natSegCmp (nkey p.pkgver) (nkey q.pkgver) ≠ 0 := by omega
      simp [hv, hv2]
  · have he2 : q.epoch ≠ p.epoch := Ne.symm he
    have hs := lexCmp_swap p.epoch.data q.epoch.data
    cases hl : lexCmp p.epoch.data q.epoch.data with
    | lt =>
      rw [hl] at hs
      simp [he, he2, hs, hl, Ordering.swap]
    | eq => exact absurd hl (lexCmp_ne_eq_of_ne he)
    | gt =>
      rw [hl] at hs
      simp [he, he2, hs, hl, Ordering.swap]

theorem cmpKey_trans_le (a b c : Pkg) (hab : cmpKey a b ≠ 1)
    (hbc : cmpKey b c ≠ 1) : cmpKey a c ≠ 1 := by
  by_cases h1 : a.epoch = b.epoch
  · by_cases h2 : b.epoch = c.epoch
    · -- all epochs equal: the claim reduces to the version/release cascade
      have h3 : a.epoch = c.epoch := h1.trans h2
      unfold cmpKey at hab hbc ⊢
      rw [if_neg (by simpa using h1)] at hab
      rw [if_neg (by simpa using h2)] at hbc
      rw [if_neg (by simpa using h3)]
      by_cases hv1 : natSegCmp (nkey a.pkgver) (nkey b.pkgver) = 0
      · have he1 : nkey a.pkgver = nkey b.pkgver := (natSegCmp_eq_zero_iff _ _).mp hv1
        rw [if_neg (by simpa using hv1)] at hab
        by_cases hv2 : natSegCmp (nkey b.pkgver) (nkey c.pkgver) = 0
        · have he2 : nkey b.pkgver = nkey c.pkgver := (natSegCmp_eq_zero_iff _ _).mp hv2
          rw [if_neg (by simpa using hv2)] at hbc
          have hv3 : natSegCmp (nkey a.pkgver) (nkey c.pkgver) = 0 := by
            rw [he1, he2, natSegCmp_eq_zero_iff]
          rw [if_neg (by simpa using hv3)]
          exact natSegCmp_trans_le _ _ _ hab hbc
        · rw [if_pos (by simpa using hv2)] at hbc
          have hv3 : natSegCmp (nkey a.pkgver) (nkey c.pkgver) ≠ 0 := by
            rw [he1]; exact hv2
          rw [if_pos (by simpa using hv3)]
          rw [he1]; exact hbc
      · rw [if_pos (by simpa using hv1)] at hab
        by_cases hv2 : natSegCmp (nkey b.pkgver) (nkey c.pkgver) = 0
        · have he2 : nkey b.pkgver = nkey c.pkgver := (natSegCmp_eq_zero_iff _ _).mp hv2
          have hv3 : natSegCmp (nkey a.pkgver) (nkey c.pkgver) ≠ 0 := by
            rw [← he2]; exact hv1
          rw [if_pos (by simpa using hv3), ← he2]
          exact hab
        · have hlt1 : natSegCmp (nkey a.pkgver) (nkey b.pkgver) = -1 := by
            rcases natSegCmp_range (nkey a.pkgver) (nkey b.pkgver) with h | h | h <;> omega
          have hlt2 : natSegCmp (nkey b.pkgver) (nkey c.pkgver) = -1 := by
            rw [if_pos (by simpa using hv2)] at hbc
            rcases natSegCmp_range (nkey b.pkgver) (nkey c.pkgver) with h | h | h <;> omega
          have hlt3 := natSegCmp_trans_lt _ _ _ hlt1 hlt2
          rw [if_pos (by omega)]
          omega
    · -- a.epoch = b.epoch < c.epoch
      have h3 : a.epoch ≠ c.epoch := h1 ▸ h2
      unfold cmpKey at hbc ⊢
      rw [if_pos (by simpa using h2)] at hbc
      rw [if_pos (by simpa using h3)]
      have hd : b.epoch.data = a.epoch.data := by rw [h1]
      rw [hd] at hbc
      exact hbc
  · by_cases h2 : b.epoch = c.epoch
    · -- a.epoch < b.epoch = c.epoch
      have h3 : a.epoch ≠ c.epoch := fun h => h1 (h.trans h2.symm)
      unfold cmpKey at hab ⊢
      rw [if_pos (by simpa using h1)] at hab
      rw [if_pos (by simpa using h3)]
      have hd : b.epoch.data = c.epoch.data := by rw [h2]
      rw [hd] at hab
      exact hab
    · -- both epoch comparisons strict: chain the lexicographic order
      unfold cmpKey at hab hbc ⊢
      rw [if_pos (by simpa using h1)] at hab
      rw [if_pos (by simpa using h2)] at hbc
      have hg1 : lexCmp a.epoch.data b.epoch.data = Ordering.lt := by
        by_cases hg : lexCmp a.epoch.data b.epoch.data = Ordering.gt
        · rw [if_pos hg] at hab; omega
        · cases hl : lexCmp a.epoch.data b.epoch.data with
          | lt => rfl
          | eq => exact absurd hl (lexCmp_ne_eq_of_ne h1)
          | gt => exact absurd hl hg
      have hg2 : lexCmp b.epoch.data c.epoch.data = Ordering.lt := by
        by_cases hg : lexCmp b.epoch.data c.epoch.data = Ordering.gt
        · rw [if_pos hg] at hbc; omega
        · cases hl : lexCmp b.epoch.data c.epoch.data with
          | lt => rfl
          | eq => exact absurd hl (lexCmp_ne_eq_of_ne h2)
          | gt => exact absurd hl hg
      have hg3 := lexCmp_trans_lt _ _ _ hg1 hg2
      have h3 : a.epoch ≠ c.epoch := by
        intro h
        rw [h] at hg3
        have := (lexCmp_eq_iff c.epoch.data c.epoch.data).mpr rfl
        rw [this] at hg3
        cases hg3
      rw [if_pos (by simpa using h3), if_neg (by simp [hg3])]
      omega

/- ### Totality and reflexivity of the comparator -/

theorem loopCmp_some (xs : List (List Char)) :
    ∀ ys r, loopCmp xs ys = some r → r = 1 ∨ r = -1 := by
  induction xs with
  | nil => intro ys r h; cases ys <;> simp [loopCmp] at h
  | cons x xs ih =>
    intro ys r h
    cases ys with
    | nil => simp [loopCmp] at h
    | cons y ys =>
      by_cases hxy : x = y
      · subst hxy
        simp only [loopCmp, ne_eq, not_true_eq_false, if_false, ite_not, if_pos rfl] at h
        exact ih ys r h
      · simp only [loopCmp, ne_eq, hxy, not_false_eq_true, if_true, Option.some.injEq] at h
        split at h <;> split at h <;> omega

theorem loopCmp_self (xs : List (List Char)) : loopCmp xs xs = none := by
  induction xs with
  | nil => rfl
  | cons x xs ih => simpa [loopCmp] using ih

theorem verPartCmp_range (xs ys : List (List Char)) :
    verPartCmp xs ys = -1 ∨ verPartCmp xs ys = 0 ∨ verPartCmp xs ys = 1 := by
  unfold verPartCmp
  cases h : loopCmp xs ys with
  | some r => rcases loopCmp_some xs ys r h with h2 | h2 <;> simp [h2]
  | none =>
    by_cases hl : xs.length = ys.length
    · simp [hl]
    · by_cases hg : xs.length > ys.length <;> simp [hl, hg]

theorem verPartCmp_self (xs : List (List Char)) : verPartCmp xs xs = 0 := by
  unfold verPartCmp
  rw [loopCmp_self]
  simp

theorem compare_versions_range (p q : Pkg) :
    compare_versions p q = -1 ∨ compare_versions p q = 0 ∨ compare_versions p q = 1 := by
  unfold compare_versions
  by_cases he : p.epoch = q.epoch
  · simp only [he, ne_eq, not_true_eq_false, if_false, ite_not, if_pos rfl]
    by_cases hv : verPartCmp (vparts p.pkgver) (vparts q.pkgver) = 0
    · simpa [hv] using verPartCmp_range (vparts p.relver) (vparts q.relver)
    · simpa [hv] using verPartCmp_range (vparts p.pkgver) (vparts q.pkgver)
  · by_cases hl : lexCmp p.epoch.data q.epoch.data = Ordering.gt <;> simp [he, hl]

theorem compare_versions_refl (p : Pkg) : compare_versions p p = 0 := by
  unfold compare_versions
  simp [verPartCmp_self]

/- ### Transitivity on canonical records -/

theorem compare_versions_trans_le {a b c : Pkg} (ha : canonPkg a = true)
    (hb : canonPkg b = true) (hc : canonPkg c = true)
    (hab : compare_versions a b ≠ 1) (hbc : compare_versions b c ≠ 1) :
    compare_versions a c ≠ 1 := by
  rw [compare_versions_canon ha hb] at hab
  rw [compare_versions_canon hb hc] at hbc
  rw [compare_versions_canon ha hc]
  exact cmpKey_trans_le a b c hab hbc

theorem compare_versions_flip {p q : Pkg} (hp : canonPkg p = true)
    (hq : canonPkg q = true) :
    compare_versions q p = -compare_versions p q := by
  rw [compare_versions_canon hq hp, compare_versions_canon hp hq]
  exact cmpKey_flip p q

/- ### The `find_latest` fold -/

/-- The fold step of `find_latest` and `find_latest_package`. -/
def latestStep (latest pkg : Pkg) : Pkg :=
  if compare_versions pkg latest > 0 then pkg else latest

theorem find_latest_eq_foldl (p0 : Pkg) (rest : List Pkg) :
    find_latest (p0 :: rest) = some (rest.foldl latestStep p0) := rfl

theorem foldl_latest_mem (t : List Pkg) :
    ∀ acc : Pkg, t.foldl latestStep acc = acc ∨ t.foldl latestStep acc ∈ t := by
  induction t with
  | nil => intro acc; left; rfl
  | cons p t ih =>
    intro acc
    rw [List.foldl_cons]
    rcases ih (latestStep acc p) with h | h
    · rw [h]
      unfold latestStep
      by_cases hc : compare_versions p acc > 0
      · right; simp [hc]
      · left; simp [hc]
    · right; simp [h]

theorem foldl_latest_ge (t : List Pkg) :
    ∀ acc : Pkg, canonPkg acc = true → (∀ p ∈ t, canonPkg p = true) →
      compare_versions (t.foldl latestStep acc) acc ≠ -1 ∧
      ∀ x ∈ t, compare_versions (t.foldl latestStep acc) x ≠ -1 := by
  induction t with
  | nil =>
    intro acc hacc _
    refine ⟨?_, by simp⟩
    rw [List.foldl_nil, compare_versions_refl]
    omega
  | cons p t ih =>
    intro acc hacc ht
    have hp : canonPkg p = true := ht p (by simp)
    have ht' : ∀ x ∈ t, canonPkg x = true := fun x hx => ht x (by simp [hx])
    have hacc' : canonPkg (latestStep acc p) = true := by
      unfold latestStep
      by_cases hc : compare_versions p acc > 0 <;> simp [hc, hp, hacc]
    have hr : canonPkg (t.foldl latestStep (latestStep acc p)) = true := by
      rcases foldl_latest_mem t (latestStep acc p) with h | h
      · rw [h]; exact hacc'
      · exact ht' _ h
    obtain ⟨ih1, ih2⟩ := ih (latestStep acc p) hacc' ht'
    rw [List.foldl_cons]
    set r := t.foldl latestStep (latestStep acc p) with hrdef
    by_cases hc : compare_versions p acc > 0
    · have hstep : latestStep acc p = p := by unfold latestStep; simp [hc]
      rw [hstep] at ih1
      have hpacc : compare_versions p acc = 1 := by
        rcases compare_versions_range p acc with h | h | h <;> omega
      refine ⟨?_, ?_⟩
      · -- r ≥ p and p > acc imply r ≥ acc
        intro hcon
        have h1 : compare_versions acc r = 1 := by
          have := compare_versions_flip hr hacc
          omega
        have h2 : compare_versions acc p ≠ 1 := by
          have := compare_versions_flip hp hacc
          omega
        have h3 : compare_versions p r ≠ 1 := by
          have := compare_versions_flip hr hp
          omega
        have := compare_versions_trans_le hacc hp hr h2 h3
        exact this h1
      · intro x hx
        rcases List.mem_cons.mp hx with h | h
        · subst h; exact ih1
        · exact ih2 x h
    · have hstep : latestStep acc p = acc := by unfold latestStep; simp [hc]
      rw [hstep] at ih1
      have hpacc : compare_versions p acc ≠ 1 := by omega
      refine ⟨ih1, ?_⟩
      intro x hx
      rcases List.mem_cons.mp hx with h | h
      · rw [h]
        -- p ≤ acc ≤ r implies r ≥ p
        intro hcon
        have h1 : compare_versions p r = 1 := by
          have := compare_versions_flip hr hp
          omega
        have h2 : compare_versions acc r ≠ 1 := by
          have := compare_versions_flip hr hacc
          omega
        have := compare_versions_trans_le hp hacc hr hpacc h2
        exact this h1
      · exact ih2 x h

/- ### Split/join lemmas -/

theorem splitChar_ne_nil (sep : Char) (l : List Char) : splitChar sep l ≠ [] := by
  cases l with
  | nil => simp [splitChar]
  | cons c cs =>
    unfold splitChar
    cases h : splitChar sep cs with
    | nil => simp
    | cons a t => by_cases hc : c = sep <;> simp [hc]

theorem splitChar_cons_eq (sep c : Char) (cs : List Char) (a : List Char)
    (t : List (List Char)) (h : splitChar sep cs = a :: t) :
    splitChar sep (c :: cs) = if c = sep then [] :: a :: t else (c :: a) :: t := by
  unfold splitChar
  rw [h]

theorem joinChar_splitChar (sep : Char) (l : List Char) :
    joinChar sep (splitChar sep l) = l := by
  induction l with
  | nil => rfl
  | cons c cs ih =>
    cases h : splitChar sep cs with
    | nil => exact absurd h (splitChar_ne_nil sep cs)
    | cons a t =>
      rw [h] at ih
      rw [splitChar_cons_eq sep c cs a t h]
      by_cases hc : c = sep
      · rw [if_pos hc]
        show [] ++ sep :: joinChar sep (a :: t) = c :: cs
        rw [List.nil_append, ih, hc]
      · rw [if_neg hc]
        cases t with
        | nil =>
          show c :: a = c :: cs
          simp only [joinChar] at ih
          rw [ih]
        | cons b t2 =>
          show (c :: a) ++ sep :: joinChar sep (b :: t2) = c :: cs
          simp only [joinChar] at ih
          rw [List.cons_append, ih]

theorem splitChar_parts_no_sep (sep : Char) (l : List Char) :
    ∀ p ∈ splitChar sep l, sep ∉ p := by
  induction l with
  | nil =>
    intro p hp
    simp [splitChar] at hp
    simp [hp]
  | cons c cs ih =>
    intro p hp
    cases h : splitChar sep cs with
    | nil => exact absurd h (splitChar_ne_nil sep cs)
    | cons a t =>
      rw [splitChar_cons_eq sep c cs a t h] at hp
      rw [h] at ih
      by_cases hc : c = sep
      · rw [if_pos hc] at hp
        rcases List.mem_cons.mp hp with h2 | h2
        · subst h2; simp
        · exact ih p h2
      · rw [if_neg hc] at hp
        rcases List.mem_cons.mp hp with h2 | h2
        · subst h2
          intro hmem
          rcases List.mem_cons.mp hmem with h3 | h3
          · exact hc h3.symm
          · exact ih a (by simp) h3
        · exact ih p (by simp [h2])

theorem splitChar_append_sep (sep : Char) (m : List Char) :
    ∀ x : List Char, sep ∉ x →
      splitChar sep (x ++ sep :: m) = x :: splitChar sep m := by
  intro x
  induction x with
  | nil =>
    intro _
    simp only [List.nil_append]
    cases h : splitChar sep m with
    | nil => exact absurd h (splitChar_ne_nil sep m)
    | cons a t =>
      rw [splitChar_cons_eq sep sep m a t h, if_pos rfl]
  | cons c cs ih =>
    intro hx
    have hc : c ≠ sep := by intro h; exact hx (by simp [h])
    have hcs : sep ∉ cs := fun h => hx (by simp [h])
    have hrec := ih hcs
    simp only [List.cons_append]
    rw [splitChar_cons_eq sep c (cs ++ sep :: m) cs (splitChar sep m) hrec, if_neg hc]

theorem splitChar_no_sep (sep : Char) (l : List Char) (h : sep ∉ l) :
    splitChar sep l = [l] := by
  induction l with
  | nil => rfl
  | cons c cs ih =>
    have hc : c ≠ sep := fun hh => h (by simp [hh])
    have hcs : sep ∉ cs := fun hh => h (by simp [hh])
    rw [splitChar_cons_eq sep c cs cs [] (ih hcs), if_neg hc]

theorem joinChar_append (sep : Char) (B : List (List Char)) :
    ∀ A : List (List Char), A ≠ [] → B ≠ [] →
      joinChar sep (A ++ B) = joinChar sep A ++ sep :: joinChar sep B := by
  intro A
  induction A with
  | nil => intro h _; exact absurd rfl h
  | cons x A ih =>
    intro _ hB
    cases A with
    | nil =>
      cases B with
      | nil => exact absurd rfl hB
      | cons b B2 => simp [joinChar]
    | cons y A2 =>
      have hih := ih (by simp) hB
      show x ++ sep :: joinChar sep ((y :: A2) ++ B) =
        (x ++ sep :: joinChar sep (y :: A2)) ++ sep :: joinChar sep B
      rw [hih]
      simp

theorem splitChar_joinChar (sep : Char) :
    ∀ P : List (List Char), P ≠ [] → (∀ p ∈ P, sep ∉ p) →
      splitChar sep (joinChar sep P) = P := by
  intro P
  induction P with
  | nil => intro h _; exact absurd rfl h
  | cons x P ih =>
    intro _ hall
    cases P with
    | nil =>
      have := splitChar_no_sep sep x (hall x (by simp))
      simpa [joinChar] using this
    | cons y P2 =>
      have hx : sep ∉ x := hall x (by simp)
      have hrest := ih (by simp) (fun p hp => hall p (by simp [hp]))
      show splitChar sep (x ++ sep :: joinChar sep (y :: P2)) = x :: y :: P2
      rw [splitChar_append_sep sep _ x hx, hrest]

theorem splitChar_head (sep : Char) (l : List Char) :
    ∃ t, splitChar sep l = (l.takeWhile (fun c => !(c = sep))) :: t := by
  induction l with
  | nil => exact ⟨[], rfl⟩
  | cons c cs ih =>
    obtain ⟨t, ht⟩ := ih
    by_cases hc : c = sep
    · cases h : splitChar sep cs with
      | nil => exact absurd h (splitChar_ne_nil sep cs)
      | cons a t2 =>
        refine ⟨a :: t2, ?_⟩
        rw [splitChar_cons_eq sep c cs a t2 h, if_pos hc]
        simp [List.takeWhile_cons, hc]
    · cases h : splitChar sep cs with
      | nil => exact absurd h (splitChar_ne_nil sep cs)
      | cons a t2 =>
        rw [h] at ht
        injection ht with ha ht2
        refine ⟨t2, ?_⟩
        rw [splitChar_cons_eq sep c cs a t2 h, if_neg hc]
        simp [List.takeWhile_cons, hc, ha]

/- ### Parser helper lemmas -/

theorem findVStart_append (B : List (List Char)) :
    ∀ A : List (List Char), (∀ p ∈ A, isVersionPart p = false) →
      findVStart (A ++ B) = A.length + findVStart B := by
  intro A
  induction A with
  | nil => intro _; simp
  | cons x A ih =>
    intro hA
    have hx := hA x (by simp)
    have hstep : findVStart ((x :: A) ++ B) = findVStart (A ++ B) + 1 := by
      show findVStart (x :: (A ++ B)) = _
      simp [findVStart, hx]
    rw [hstep, ih (fun p hp => hA p (by simp [hp])), List.length_cons]
    omega

theorem splitFirst_append (sep : Char) (y : List Char) :
    ∀ x : List Char, sep ∉ x → splitFirst sep (x ++ sep :: y) = (x, y) := by
  intro x
  induction x with
  | nil => intro _; simp [splitFirst]
  | cons c cs ih =>
    intro hx
    have hc : c ≠ sep := fun h => hx (by simp [h])
    have hcs : sep ∉ cs := fun h => hx (by simp [h])
    simp [splitFirst, hc, ih hcs]

theorem isdigitPy_chars {l : List Char} (h : isdigitPy l = true) :
    ∀ c ∈ l, c.isDigit = true := by
  simp only [isdigitPy, Bool.and_eq_true, List.all_eq_true] at h
  intro c hc
  exact h.2 c hc

theorem isdigitPy_no_dash {l : List Char} (h : isdigitPy l = true) : '-' ∉ l :=
  fun hm => absurd (isdigitPy_chars h _ hm) (by decide)

theorem isdigitPy_no_colon {l : List Char} (h : isdigitPy l = true) : ':' ∉ l :=
  fun hm => absurd (isdigitPy_chars h _ hm) (by decide)

theorem isdigitPy_no_slash {l : List Char} (h : isdigitPy l = true) : '/' ∉ l :=
  fun hm => absurd (isdigitPy_chars h _ hm) (by decide)

theorem isdigitPy_ne_nil {l : List Char} (h : isdigitPy l = true) : l ≠ [] := by
  intro hn
  subst hn
  simp [isdigitPy] at h

theorem basenameC_no_slash (l : List Char) (h : '/' ∉ l) : basenameC l = l := by
  unfold basenameC
  rw [splitChar_no_sep _ _ h]
  rfl

theorem zstSuffix_length : zstSuffix.length = 12 := rfl

theorem endsWithZst_append (x : List Char) : endsWithZst (x ++ zstSuffix) = true := by
  unfold endsWithZst
  have hlen : (x ++ zstSuffix).length - 12 = x.length := by
    simp [List.length_append, zstSuffix_length]
  rw [hlen, List.drop_left]
  simp

theorem stem_of_append (x : List Char) :
    (x ++ zstSuffix).take ((x ++ zstSuffix).length - 12) = x := by
  have hlen : (x ++ zstSuffix).length - 12 = x.length := by
    simp [List.length_append, zstSuffix_length]
  rw [hlen, List.take_left]

theorem strMk_data (s : String) : String.mk s.data = s := rfl

theorem takeWhile_all_append (p : Char → Bool) (y : List Char) :
    ∀ x : List Char, (∀ c ∈ x, p c = true) →
      (x ++ y).takeWhile p = x ++ y.takeWhile p := by
  intro x
  induction x with
  | nil => intro _; simp
  | cons c cs ih =>
    intro hx
    have hc := hx c (by simp)
    simp only [List.cons_append, List.takeWhile_cons, hc, if_true]
    rw [ih (fun d hd => hx d (by simp [hd]))]

theorem isVersionPart_cons_digit {c : Char} (l : List Char) (h : c.isDigit = true) :
    isVersionPart (c :: l) = true := by
  simp [isVersionPart, h]

theorem isVersionPart_of_colon {l : List Char} (h : ':' ∈ l) :
    isVersionPart l = true := by
  cases l with
  | nil => simp at h
  | cons c cs => simp [isVersionPart, h]

/- ### Round trip of synthesized filenames through the parser -/

theorem parseCore_roundTrip (nL e vL rL aL : List Char)
    (h1 : ∀ p ∈ splitChar '-' nL, isVersionPart p = false)
    (h2 : nL.any isAlnum = true)
    (h3 : '/' ∉ nL)
    (h4 : e = [] ∨ isdigitPy e = true)
    (h5 : ∃ c t, vL = c :: t ∧ c.isDigit = true)
    (h6 : ':' ∉ vL)
    (h7 : '/' ∉ vL)
    (h8 : relOk rL = true)
    (h9 : '-' ∉ rL)
    (h10 : '/' ∉ rL)
    (h11 : '-' ∉ aL)
    (h12 : '/' ∉ aL) :
    parseCore ((nL ++ '-' :: (((if e = [] then [] else e ++ [':']) ++ vL) ++
        '-' :: (rL ++ '-' :: aL))) ++ zstSuffix) =
      some { pkgname := String.mk nL, pkgver := String.mk vL,
             epoch := String.mk (if e = [] then "0".data else e),
             relver := String.mk rL, arch := String.mk aL,
             location := ".",
             filename := String.mk ((nL ++ '-' :: (((if e = [] then [] else e ++ [':']) ++ vL) ++
               '-' :: (rL ++ '-' :: aL))) ++ zstSuffix) } := by
  set ev : List Char := (if e = [] then [] else e ++ [':']) ++ vL with hev
  set stem0 : List Char := nL ++ '-' :: (ev ++ '-' :: (rL ++ '-' :: aL)) with hstem0
  set nParts : List (List Char) := splitChar '-' nL with hnParts
  set evParts : List (List Char) := splitChar '-' ev with hevParts
  set Pfx : List (List Char) := nParts ++ evParts with hPfx
  -- no slash anywhere in the synthesized filename
  have fe_slash : '/' ∉ e := by
    rcases h4 with h | h
    · subst h; simp
    · exact isdigitPy_no_slash h
  have f1 : '/' ∉ ev := by
    rw [hev]
    intro hm
    rcases List.mem_append.mp hm with hm | hm
    · split at hm
      · simp at hm
      · rcases List.mem_append.mp hm with hm | hm
        · exact fe_slash hm
        · simp at hm
    · exact h7 hm
  have f2 : '/' ∉ stem0 := by
    rw [hstem0]
    intro hm
    rcases List.mem_append.mp hm with hm | hm
    · exact h3 hm
    · rcases List.mem_cons.mp hm with hm | hm
      · cases hm
      · rcases List.mem_append.mp hm with hm | hm
        · exact f1 hm
        · rcases List.mem_cons.mp hm with hm | hm
          · cases hm
          · rcases List.mem_append.mp hm with hm | hm
            · exact h10 hm
            · rcases List.mem_cons.mp hm with hm | hm
              · cases hm
              · exact h12 hm
  have f3 : '/' ∉ stem0 ++ zstSuffix := by
    intro hm
    rcases List.mem_append.mp hm with hm | hm
    · exact f2 hm
    · revert hm; decide
  have f4 : endsWithZst (stem0 ++ zstSuffix) = true := endsWithZst_append stem0
  have f5 : basenameC (stem0 ++ zstSuffix) = stem0 ++ zstSuffix :=
    basenameC_no_slash _ f3
  have f6 : (stem0 ++ zstSuffix).take ((stem0 ++ zstSuffix).length - 12) = stem0 :=
    stem_of_append stem0
  -- the hyphen split of the stem
  have hnPne : nParts ≠ [] := splitChar_ne_nil '-' nL
  have hevPne : evParts ≠ [] := splitChar_ne_nil '-' ev
  have hPfxne : Pfx ≠ [] := by
    rw [hPfx]
    intro h
    exact hnPne (List.append_eq_nil.mp h).1
  have f7 : stem0 = joinChar '-' (Pfx ++ [rL, aL]) := by
    rw [joinChar_append '-' [rL, aL] Pfx hPfxne (by simp), hPfx,
      joinChar_append '-' evParts nParts hnPne hevPne,
      hnParts, hevParts, joinChar_splitChar, joinChar_splitChar]
    show stem0 = (nL ++ '-' :: ev) ++ '-' :: (rL ++ '-' :: aL)
    rw [hstem0]
    simp
  have f8 : splitChar '-' stem0 = Pfx ++ [rL, aL] := by
    rw [f7]
    refine splitChar_joinChar '-' _ (by simp [hPfxne]) ?_
    intro p hp
    rcases List.mem_append.mp hp with hp | hp
    · rw [hPfx] at hp
      rcases List.mem_append.mp hp with hp | hp
      · exact splitChar_parts_no_sep '-' nL p (hnParts ▸ hp)
      · exact splitChar_parts_no_sep '-' ev p (hevParts ▸ hp)
    · rcases List.mem_cons.mp hp with hp | hp
      · subst hp; exact h9
      · rcases List.mem_cons.mp hp with hp | hp
        · subst hp; exact h11
        · simp at hp
  have hlenP : (Pfx ++ [rL, aL]).length = Pfx.length + 2 := by simp
  have hPfxpos : 1 ≤ Pfx.length := by
    rw [hPfx]
    have := List.length_pos.mpr hnPne
    simp
    omega
  have f9 : ¬((Pfx ++ [rL, aL]).length < 4) := by
    rw [hlenP, hPfx]
    have h1p := List.length_pos.mpr hnPne
    have h2p := List.length_pos.mpr hevPne
    simp only [List.length_append]
    omega
  have f10 : (Pfx ++ [rL, aL]).getLastD [] = aL := by
    have : Pfx ++ [rL, aL] = (Pfx ++ [rL]) ++ [aL] := by simp
    rw [this, List.getLastD_concat]
  have f11 : (Pfx ++ [rL, aL]).getD ((Pfx ++ [rL, aL]).length - 2) [] = rL := by
    rw [hlenP]
    have h2 : Pfx.length + 2 - 2 = Pfx.length := by omega
    rw [h2, List.getD_append_right Pfx [rL, aL] [] Pfx.length (le_refl _)]
    simp
  have f12 : (Pfx ++ [rL, aL]).take ((Pfx ++ [rL, aL]).length - 2) = Pfx := by
    rw [hlenP]
    have h2 : Pfx.length + 2 - 2 = Pfx.length := by omega
    rw [h2, List.take_left]
  -- the scan finds the version boundary at the end of the name segments
  obtain ⟨evt, hevt⟩ := splitChar_head '-' ev
  have hevhead : isVersionPart (ev.takeWhile (fun c => !(c = '-'))) = true := by
    rcases h4 with hcase | hcase
    · obtain ⟨c, t, hv, hc⟩ := h5
      have : ev = c :: t := by rw [hev, hcase, hv]; rfl
      rw [this]
      have hcd : (!(c = '-')) = true := by
        have : c ≠ '-' := by
          intro hcc
          rw [hcc] at hc
          exact absurd hc (by decide)
        simp [this]
      rw [List.takeWhile_cons, hcd]
      simp only [if_true]
      exact isVersionPart_cons_digit _ hc
    · have hne : e ≠ [] := isdigitPy_ne_nil hcase
      have : ev = e ++ ':' :: vL := by rw [hev, if_neg hne]; simp
      rw [this, takeWhile_all_append _ _ e
        (fun c hc => by
          have := isdigitPy_chars hcase c hc
          have hcd : c ≠ '-' := by
            intro hcc
            rw [hcc] at this
            exact absurd this (by decide)
          simp [hcd])]
      apply isVersionPart_of_colon
      refine List.mem_append.mpr (Or.inr ?_)
      rw [List.takeWhile_cons]
      simp
  have f13 : findVStart Pfx = nParts.length := by
    rw [hPfx, findVStart_append evParts nParts (hnParts ▸ h1), hevParts, hevt]
    simp [findVStart, hevhead]
  have f14 : ¬(findVStart Pfx = Pfx.length) := by
    rw [f13, hPfx]
    have h2p := List.length_pos.mpr hevPne
    simp only [List.length_append]
    omega
  have f15 : Pfx.take nParts.length = nParts := by
    rw [hPfx, List.take_left]
  have f16 : Pfx.drop nParts.length = evParts := by
    rw [hPfx, List.drop_left]
  have f17 : joinChar '-' evParts = ev := by
    rw [hevParts, joinChar_splitChar]
  -- evaluate the parser
  unfold parseCore
  rw [f4]
  simp only [Bool.not_true, Bool.false_eq_true, if_false]
  rw [f5, f6, f8]
  rw [if_neg (by simpa using f9)]
  rw [f10, f11]
  rw [h8]
  simp only [Bool.not_true, Bool.false_eq_true, if_false]
  rw [f12, f13]
  rw [if_neg (f13 ▸ f14)]
  rw [f15, f16, f17]
  -- evaluate finishParse
  unfold finishParse
  have g1 : nParts.isEmpty = false := by
    cases hn : nParts with
    | nil => exact absurd hn hnPne
    | cons a t => rfl
  rw [g1]
  simp only [Bool.false_eq_true, if_false]
  have hjn : joinChar '-' nParts = nL := by
    rw [hnParts, joinChar_splitChar]
  rw [hjn]
  have g2 : (nL.isEmpty || nL.all fun c => !(isAlnum c)) = false := by
    obtain ⟨c, hc, hca⟩ := List.any_eq_true.mp h2
    have hne : nL.isEmpty = false := by
      cases nL with
      | nil => simp at hc
      | cons a t => rfl
    have hall : (nL.all fun c => !(isAlnum c)) = false := by
      by_contra hcon
      rw [Bool.not_eq_false] at hcon
      have := List.all_eq_true.mp hcon c hc
      rw [hca] at this
      simp at this
    rw [hne, hall]
    rfl
  rw [g2]
  simp only [Bool.false_eq_true, if_false]
  -- the epoch split
  rcases h4 with hcase | hcase
  · have hevv : ev = vL := by rw [hev, hcase]; rfl
    have hnc : ¬(':' ∈ ev) := by rw [hevv]; exact h6
    rw [if_neg hnc]
    simp only [Option.some.injEq]
    rw [hevv, hcase]
    have hdir : dirnameC (stem0 ++ zstSuffix) = ".".data := by
      unfold dirnameC
      rw [if_neg f3]
    rw [hdir]
    rfl
  · have hne : e ≠ [] := isdigitPy_ne_nil hcase
    have hevv : ev = e ++ ':' :: vL := by rw [hev, if_neg hne]; simp
    have hcc : ':' ∈ ev := by
      rw [hevv]
      exact List.mem_append.mpr (Or.inr (by simp))
    rw [if_pos hcc]
    have hsf : splitFirst ':' ev = (e, vL) := by
      rw [hevv]
      exact splitFirst_append ':' vL e (isdigitPy_no_colon hcase)
    rw [hsf]
    simp only [Option.some.injEq]
    rw [if_neg hne]
    have hdir : dirnameC (stem0 ++ zstSuffix) = ".".data := by
      unfold dirnameC
      rw [if_neg f3]
    rw [hdir]

/-- The filename synthesis of the round-trip property:
`f"{name}-{epoch and epoch+':' or ''}{version}-{release}-{arch}.pkg.tar.zst"`
(the epoch and its colon are omitted when the epoch is empty). -/
def synthFilename (n e v r a : String) : String :=
  n ++ "-" ++ (if e = "" then "" else e ++ ":") ++ v ++ "-" ++ r ++ "-" ++ a ++ ".pkg.tar.zst"

theorem str_eq_empty_iff (e : String) : e = "" ↔ e.data = [] := by
  constructor
  · intro h; rw [h]
  · intro h; exact String.ext h

theorem synthFilename_data (n e v r a : String) :
    (synthFilename n e v r a).data =
      (n.data ++ '-' :: (((if e.data = [] then [] else e.data ++ [':']) ++ v.data) ++
        '-' :: (r.data ++ '-' :: a.data))) ++ zstSuffix := by
  have hif : (if e = "" then "" else e ++ ":").data =
      (if e.data = [] then [] else e.data ++ [':']) := by
    by_cases h : e = ""
    · rw [if_pos h, if_pos ((str_eq_empty_iff e).mp h)]
    · rw [if_neg h, if_neg (fun hc => h ((str_eq_empty_iff e).mpr hc))]
      rw [String.data_append]
  show (n ++ "-" ++ (if e = "" then "" else e ++ ":") ++ v ++ "-" ++ r ++ "-" ++ a ++
    ".pkg.tar.zst").data = _
  simp only [String.data_append, hif]
  simp [zstSuffix]

theorem parse_synthFilename (n e v r a : String)
    (hn1 : ∀ p ∈ splitChar '-' n.data, isVersionPart p = false)
    (hn2 : n.data.any isAlnum = true)
    (hn3 : '/' ∉ n.data)
    (he : e = "" ∨ isdigitPy e.data = true)
    (hv1 : ∃ c t, v.data = c :: t ∧ c.isDigit = true)
    (hv2 : ':' ∉ v.data)
    (hv3 : '/' ∉ v.data)
    (hr1 : relOk r.data = true)
    (hr2 : '-' ∉ r.data)
    (hr3 : '/' ∉ r.data)
    (ha1 : '-' ∉ a.data)
    (ha2 : '/' ∉ a.data) :
    parse_filename (synthFilename n e v r a) =
      some { pkgname := n, pkgver := v, epoch := if e = "" then "0" else e,
             relver := r, arch := a, location := ".",
             filename := synthFilename n e v r a } := by
  have he' : e.data = [] ∨ isdigitPy e.data = true := by
    rcases he with h | h
    · exact Or.inl ((str_eq_empty_iff e).mp h)
    · exact Or.inr h
  unfold parse_filename
  rw [synthFilename_data]
  rw [parseCore_roundTrip n.data e.data v.data r.data a.data hn1 hn2 hn3 he' hv1
    hv2 hv3 hr1 hr2 hr3 ha1 ha2]
  have hep : String.mk (if e.data = [] then "0".data else e.data) =
      (if e = "" then "0" else e) := by
    by_cases h : e = ""
    · rw [if_pos ((str_eq_empty_iff e).mp h), if_pos h]
    · rw [if_neg (fun hc => h ((str_eq_empty_iff e).mpr hc)), if_neg h]
  rw [hep, ← synthFilename_data]

/- ### Failure paths of the parser -/

theorem parseCore_none (l : List Char)
    (h : endsWithZst l = false ∨
      (splitChar '-' ((basenameC l).take ((basenameC l).length - 12))).length < 4 ∨
      relOk ((splitChar '-' ((basenameC l).take ((basenameC l).length - 12))).getD
        ((splitChar '-' ((basenameC l).take ((basenameC l).length - 12))).length - 2) [])
        = false) :
    parseCore l = none := by
  by_cases h1 : endsWithZst l = true
  · rcases h with h | h | h
    · rw [h1] at h; cases h
    · unfold parseCore
      rw [h1]
      simp only [Bool.not_true, Bool.false_eq_true, if_false]
      rw [if_pos h]
    · by_cases h2 : (splitChar '-' ((basenameC l).take ((basenameC l).length - 12))).length < 4
      · unfold parseCore
        rw [h1]
        simp only [Bool.not_true, Bool.false_eq_true, if_false]
        rw [if_pos h2]
      · unfold parseCore
        rw [h1]
        simp only [Bool.not_true, Bool.false_eq_true, if_false]
        rw [if_neg h2, h]
        simp only [Bool.not_false, if_true]
  · unfold parseCore
    have h1' : endsWithZst l = false := by
      revert h1; cases endsWithZst l <;> simp
    rw [h1']
    simp only [Bool.not_false, if_true]

/- ### The comparator on raw dicts (`pkg1['epoch']` style access) -/

/-- Python dict access `pkg[key]`: the value, or a `KeyError` naming the key
when it is absent. -/
def dictGet (o : Option String) (key : String) : Except String String :=
  match o with
  | some s => Except.ok s
  | none => Except.error key

/-- `compare_versions` as invoked on raw dicts: each field is read with
`pkg[...]` exactly when the Python code reads it, so a missing key raises
`KeyError` (modelled as `Except.error`) instead of being defaulted. -/
def compare_versions_dict (pkg1 pkg2 : PkgD) : Except String Int := do
  let e1 ← dictGet pkg1.epoch "epoch"
  let e2 ← dictGet pkg2.epoch "epoch"
  if e1 ≠ e2 then
    return (if lexCmp e1.data e2.data = Ordering.gt then 1 else -1)
  else
    let v1 ← dictGet pkg1.pkgver "pkgver"
    let v2 ← dictGet pkg2.pkgver "pkgver"
    let v := verPartCmp (vparts v1) (vparts v2)
    if v ≠ 0 then return v
    else
      let r1 ← dictGet pkg1.relver "relver"
      let r2 ← dictGet pkg2.relver "relver"
      return verPartCmp (vparts r1) (vparts r2)

theorem compare_versions_dict_ok (p q : PkgD) (e1 v1 r1 e2 v2 r2 : String)
    (hp1 : p.epoch = some e1) (hp2 : p.pkgver = some v1) (hp3 : p.relver = some r1)
    (hq1 : q.epoch = some e2) (hq2 : q.pkgver = some v2) (hq3 : q.relver = some r2) :
    compare_versions_dict p q =
      Except.ok (compare_versions ⟨e1, v1, r1⟩ ⟨e2, v2, r2⟩) := by
  unfold compare_versions_dict compare_versions dictGet
  rw [hp1, hp2, hp3, hq1, hq2, hq3]
  by_cases he : e1 = e2
  · simp only [he, ne_eq, not_true_eq_false, if_false, ite_not, if_pos rfl]
    by_cases hv : verPartCmp (vparts v1) (vparts v2) = 0 <;>
      simp [hv, Except.pure, pure, Except.bind, bind]
  · simp [he, Except.pure, pure, Except.bind, bind]

/- ### Generic membership of choice folds -/

theorem foldl_choice_mem {α : Type} (f : α → α → α)
    (hf : ∀ a b, f a b = a ∨ f a b = b) :
    ∀ (t : List α) (acc : α), t.foldl f acc = acc ∨ t.foldl f acc ∈ t := by
  intro t
  induction t with
  | nil => intro acc; left; rfl
  | cons p t ih =>
    intro acc
    rw [List.foldl_cons]
    rcases ih (f acc p) with h | h
    · rw [h]
      rcases hf acc p with h2 | h2
      · left; exact h2
      · right; rw [h2]; simp
    · right; simp [h]

theorem mkValid_fst {p : PkgD} {pr : PkgD × Pkg} (h : mkValid p = some pr) :
    pr.1 = p := by
  simp only [mkValid] at h
  split at h
  · split at h
    · injection h with h2
      rw [← h2]
    · cases h
  · cases h

theorem find_latest_package_mem (l : List PkgD) (p : PkgD)
    (h : find_latest_package l = some p) : p ∈ l := by
  unfold find_latest_package at h
  cases hv : l.filterMap mkValid with
  | nil => rw [hv] at h; cases h
  | cons v0 rest =>
    rw [hv] at h
    injection h with h2
    have hstep : ∀ a b : PkgD × Pkg,
        (if compare_versions b.2 a.2 > 0 then b else a) = a ∨
        (if compare_versions b.2 a.2 > 0 then b else a) = b := by
      intro a b
      by_cases hc : compare_versions b.2 a.2 > 0
      · right; rw [if_pos hc]
      · left; rw [if_neg hc]
    have hmem : rest.foldl (fun latest pk =>
        if compare_versions pk.2 latest.2 > 0 then pk else latest) v0 = v0 ∨
        rest.foldl (fun latest pk =>
        if compare_versions pk.2 latest.2 > 0 then pk else latest) v0 ∈ rest := by
      exact foldl_choice_mem _ (fun a b => hstep a b) rest v0
    have hpair : rest.foldl (fun latest pk =>
        if compare_versions pk.2 latest.2 > 0 then pk else latest) v0 ∈ v0 :: rest := by
      rcases hmem with h3 | h3
      · rw [h3]; simp
      · simp [h3]
    have hin : rest.foldl (fun latest pk =>
        if compare_versions pk.2 latest.2 > 0 then pk else latest) v0 ∈
        l.filterMap mkValid := by
      rw [hv]; exact hpair
    obtain ⟨a, ha, hfa⟩ := List.mem_filterMap.mp hin
    rw [← h2, mkValid_fst hfa]
    exact ha

theorem groupDeletions_subset (pkgs : List PkgD) (q : PkgD)
    (h : q ∈ groupDeletions pkgs) : q ∈ pkgs := by
  unfold groupDeletions at h
  split at h
  · split at h
    · cases h
    · exact (List.mem_filter.mp h).1
  · cases h

/- ### Grouping invariants -/

/-- Association-list lookup in a `GroupMap` (first matching key wins; keys
are unique by construction). -/
def lookupGroup (g : GroupMap) (k : String × String) : List PkgD :=
  match g with
  | [] => []
  | (k', l) :: t => if k' = k then l else lookupGroup t k

/-- Total number of records stored in a `GroupMap`. -/
def sumSizes (g : GroupMap) : Nat := (g.map (fun x => x.2.length)).sum

theorem lookupGroup_addToGroup_same (k : String × String) (p : PkgD) :
    ∀ g : GroupMap, lookupGroup (addToGroup g k p) k = lookupGroup g k ++ [p] := by
  intro g
  induction g with
  | nil => simp [addToGroup, lookupGroup]
  | cons e t ih =>
    obtain ⟨k', l⟩ := e
    by_cases hk : k' = k
    · simp [addToGroup, lookupGroup, hk]
    · simp [addToGroup, lookupGroup, hk, ih]

theorem lookupGroup_addToGroup_other (k k' : String × String) (p : PkgD)
    (hne : k' ≠ k) :
    ∀ g : GroupMap, lookupGroup (addToGroup g k p) k' = lookupGroup g k' := by
  intro g
  induction g with
  | nil => simp [addToGroup, lookupGroup, Ne.symm hne]
  | cons e t ih =>
    obtain ⟨k2, l⟩ := e
    by_cases hk : k2 = k
    · subst hk
      simp [addToGroup, lookupGroup, Ne.symm hne]
    · simp [addToGroup, lookupGroup, hk, ih]

theorem sumSizes_addToGroup (k : String × String) (p : PkgD) :
    ∀ g : GroupMap, sumSizes (addToGroup g k p) = sumSizes g + 1 := by
  intro g
  induction g with
  | nil => simp [addToGroup, sumSizes]
  | cons e t ih =>
    obtain ⟨k2, l⟩ := e
    by_cases hk : k2 = k
    · simp [addToGroup, sumSizes, hk]
      omega
    · simp only [addToGroup, if_neg hk]
      simp only [sumSizes, List.map_cons, List.sum_cons] at ih ⊢
      omega

theorem keys_addToGroup (k : String × String) (p : PkgD) :
    ∀ g : GroupMap, (addToGroup g k p).map Prod.fst =
      if k ∈ g.map Prod.fst then g.map Prod.fst else g.map Prod.fst ++ [k] := by
  intro g
  induction g with
  | nil => simp [addToGroup]
  | cons e t ih =>
    obtain ⟨k2, l⟩ := e
    by_cases hk : k2 = k
    · subst hk
      simp [addToGroup]
    · simp only [addToGroup, if_neg hk, List.map_cons, ih]
      have hmem : (k ∈ k2 :: t.map Prod.fst) = (k ∈ t.map Prod.fst) := by
        simp [Ne.symm hk]
      by_cases ht : k ∈ t.map Prod.fst
      · simp [ht, Ne.symm hk]
      · simp [ht, Ne.symm hk]

theorem groupFold_lookup (k : String × String) :
    ∀ (pkgs : List PkgD) (acc : GroupMap × Nat),
      lookupGroup (pkgs.foldl groupStep acc).1 k =
        lookupGroup acc.1 k ++ pkgs.filter (fun p => decide (pkgKey p = some k)) := by
  intro pkgs
  induction pkgs with
  | nil => intro acc; simp
  | cons p pkgs ih =>
    intro acc
    rw [List.foldl_cons, ih]
    cases hk : pkgKey p with
    | none =>
      have hstep : groupStep acc p = (acc.1, acc.2 + 1) := by
        simp [groupStep, hk]
      rw [hstep]
      have : (decide (pkgKey p = some k)) = false := by simp [hk]
      simp [List.filter_cons, this]
    | some k2 =>
      have hstep : groupStep acc p = (addToGroup acc.1 k2 p, acc.2) := by
        simp [groupStep, hk]
      rw [hstep]
      by_cases hkk : k2 = k
      · subst hkk
        have : (decide (pkgKey p = some k2)) = true := by simp [hk]
        rw [lookupGroup_addToGroup_same]
        simp [List.filter_cons, this]
      · have : (decide (pkgKey p = some k)) = false := by simp [hk, hkk]
        rw [lookupGroup_addToGroup_other k2 k p (Ne.symm hkk)]
        simp [List.filter_cons, this]

theorem groupFold_skip :
    ∀ (pkgs : List PkgD) (acc : GroupMap × Nat),
      (pkgs.foldl groupStep acc).2 =
        acc.2 + (pkgs.filter (fun p => decide (pkgKey p = none))).length := by
  intro pkgs
  induction pkgs with
  | nil => intro acc; simp
  | cons p pkgs ih =>
    intro acc
    rw [List.foldl_cons, ih]
    cases hk : pkgKey p with
    | none =>
      have hstep : groupStep acc p = (acc.1, acc.2 + 1) := by
        simp [groupStep, hk]
      rw [hstep]
      have : (decide (pkgKey p = none)) = true := by simp [hk]
      simp [List.filter_cons, this]
      omega
    | some k2 =>
      have hstep : groupStep acc p = (addToGroup acc.1 k2 p, acc.2) := by
        simp [groupStep, hk]
      rw [hstep]
      have : (decide (pkgKey p = none)) = false := by simp [hk]
      simp [List.filter_cons, this]

theorem groupFold_total :
    ∀ (pkgs : List PkgD) (acc : GroupMap × Nat),
      sumSizes (pkgs.foldl groupStep acc).1 + (pkgs.foldl groupStep acc).2 =
        sumSizes acc.1 + acc.2 + pkgs.length := by
  intro pkgs
  induction pkgs with
  | nil => intro acc; simp
  | cons p pkgs ih =>
    intro acc
    rw [List.foldl_cons, ih]
    cases hk : pkgKey p with
    | none =>
      have hstep : groupStep acc p = (acc.1, acc.2 + 1) := by
        simp [groupStep, hk]
      rw [hstep]
      simp
      omega
    | some k2 =>
      have hstep : groupStep acc p = (addToGroup acc.1 k2 p, acc.2) := by
        simp [groupStep, hk]
      rw [hstep]
      simp [sumSizes_addToGroup]
      omega

theorem groupFold_nodup :
    ∀ (pkgs : List PkgD) (acc : GroupMap × Nat),
      (acc.1.map Prod.fst).Nodup → ((pkgs.foldl groupStep acc).1.map Prod.fst).Nodup := by
  intro pkgs
  induction pkgs with
  | nil => intro acc h; exact h
  | cons p pkgs ih =>
    intro acc hacc
    rw [List.foldl_cons]
    apply ih
    cases hk : pkgKey p with
    | none =>
      have hstep : groupStep acc p = (acc.1, acc.2 + 1) := by
        simp [groupStep, hk]
      rw [hstep]
      exact hacc
    | some k2 =>
      have hstep : groupStep acc p = (addToGroup acc.1 k2 p, acc.2) := by
        simp [groupStep, hk]
      rw [hstep]
      show ((addToGroup acc.1 k2 p).map Prod.fst).Nodup
      rw [keys_addToGroup]
      by_cases hmem : k2 ∈ acc.1.map Prod.fst
      · rw [if_pos hmem]; exact hacc
      · rw [if_neg hmem]
        rw [List.nodup_append]
        exact ⟨hacc, List.nodup_singleton _, by simp [hmem]⟩

theorem length_filter_partition (f : PkgD → Bool) :
    ∀ l : List PkgD,
      (l.filter f).length + (l.filter (fun a => !(f a))).length = l.length := by
  intro l
  induction l with
  | nil => simp
  | cons a l ih =>
    cases hf : f a <;> simp [List.filter_cons, hf] <;> omega

/- ### Claim theorems -/

/-- Counterexample to claim C1: with all of epoch, version and release
present, the records with versions `"9"`, `"10"` and `"1a"` violate
transitivity of `compare_versions`: `9 < 10` numerically, `"10" < "1a"` as
strings, but `"9" > "1a"` as strings. -/
theorem claim_C1_cex :
    compare_versions ⟨"0", "9", "1"⟩ ⟨"0", "10", "1"⟩ ≠ 1 ∧
    compare_versions ⟨"0", "10", "1"⟩ ⟨"0", "1a", "1"⟩ ≠ 1 ∧
    compare_versions ⟨"0", "9", "1"⟩ ⟨"0", "1a", "1"⟩ = 1 := by decide

/-- Claim C1 (amended): `compare_versions` is transitive
(`≠ GREATER` composes) for records whose version and release dot
components are all canonical decimal numerals. -/
theorem claim_C1 (a b c : Pkg) (ha : canonPkg a = true) (hb : canonPkg b = true)
    (hc : canonPkg c = true) (hab : compare_versions a b ≠ 1)
    (hbc : compare_versions b c ≠ 1) : compare_versions a c ≠ 1 :=
  compare_versions_trans_le ha hb hc hab hbc

/-- Witness for claim C1 at the concrete versions 1, 2, 3. -/
theorem claim_C1_witness :
    compare_versions ⟨"0", "1", "1"⟩ ⟨"0", "3", "1"⟩ ≠ 1 :=
  claim_C1 ⟨"0", "1", "1"⟩ ⟨"0", "2", "1"⟩ ⟨"0", "3", "1"⟩
    (by decide) (by decide) (by decide) (by decide) (by decide)

/-- Counterexample to claim C2: the tuple
`(name "a-1b", no epoch, version "2", release "1", arch "any")` satisfies the
claim's stated constraints (no hyphen in epoch/release/arch, no colon in
the name), yet parsing the synthesized filename returns name `"a"` and
version `"1b-2"`, because the scan mistakes the digit-leading name segment
`1b` for the start of the version. -/
theorem claim_C2_cex :
    synthFilename "a-1b" "" "2" "1" "any" = "a-1b-2-1-any.pkg.tar.zst" ∧
    (':' ∉ "a-1b".data ∧ '-' ∉ "1".data ∧ '-' ∉ "any".data) ∧
    parse_filename "a-1b-2-1-any.pkg.tar.zst" =
      some { pkgname := "a", pkgver := "1b-2", epoch := "0", relver := "1",
             arch := "any", location := ".",
             filename := "a-1b-2-1-any.pkg.tar.zst" } ∧
    ("a" : String) ≠ "a-1b" := by decide

/-- Witness for claim C2 at the spec's example `bar-2:3.4-2-any.pkg.tar.zst`. -/
theorem claim_C2_witness :
    parse_filename (synthFilename "bar" "2" "3.4" "2" "any") =
      some { pkgname := "bar", pkgver := "3.4",
             epoch := if ("2" : String) = "" then "0" else "2",
             relver := "2", arch := "any", location := ".",
             filename := synthFilename "bar" "2" "3.4" "2" "any" } :=
  parse_synthFilename "bar" "2" "3.4" "2" "any"
    (by decide) (by decide) (by decide) (Or.inr (by decide))
    ⟨'3', ['.', '4'], by decide, by decide⟩
    (by decide) (by decide) (by decide) (by decide) (by decide)
    (by decide) (by decide)

/-- Claim C3: when the epoch strings differ, `compare_versions` is decided
purely by lexicographic string comparison of the epochs (version and
release are never consulted); in particular epoch `"9"` beats epoch
`"10"` because `"9" > "10"` as strings. -/
theorem claim_C3 :
    (∀ p q : Pkg, p.epoch ≠ q.epoch →
      compare_versions p q =
        (if lexCmp p.epoch.data q.epoch.data = Ordering.gt then 1 else -1)) ∧
    compare_versions ⟨"9", "1.0", "1"⟩ ⟨"10", "1.0", "1"⟩ = 1 := by
  constructor
  · intro p q h
    unfold compare_versions
    rw [if_pos h]
  · decide

/-- Witness for claim C3 at epochs `"1"` and `"2"`. -/
theorem claim_C3_witness :
    compare_versions ⟨"1", "x", "y"⟩ ⟨"2", "x", "y"⟩ =
      (if lexCmp ("1" : String).data ("2" : String).data = Ordering.gt
        then 1 else -1) :=
  claim_C3.1 ⟨"1", "x", "y"⟩ ⟨"2", "x", "y"⟩ (by decide)

/-- Counterexample to claim C4: over the versions `"9"`, `"10"`, `"1a"`
(all fields present) the fold returns the `"1a"` record, which compares
LESS than the `"9"` record, so the returned element is not
greater-or-equal to every other element. -/
theorem claim_C4_cex :
    find_latest [⟨"0", "9", "1"⟩, ⟨"0", "10", "1"⟩, ⟨"0", "1a", "1"⟩] =
      some ⟨"0", "1a", "1"⟩ ∧
    compare_versions ⟨"0", "1a", "1"⟩ ⟨"0", "9", "1"⟩ = -1 := by decide

/-- Claim C4 (amended): `find_latest` on a non-empty list returns exactly
the left-to-right fold that replaces the running latest only on a strictly
greater comparison; when every element has canonical numeric version
components, the returned element compares GREATER or EQUAL to every
element of the list. -/
theorem claim_C4 (p0 : Pkg) (rest : List Pkg) :
    find_latest (p0 :: rest) = some (rest.foldl latestStep p0) ∧
    ((∀ p ∈ p0 :: rest, canonPkg p = true) →
      ∀ x ∈ p0 :: rest,
        compare_versions (rest.foldl latestStep p0) x = 1 ∨
        compare_versions (rest.foldl latestStep p0) x = 0) := by
  refine ⟨rfl, ?_⟩
  intro hcanon x hx
  have hfold := foldl_latest_ge rest p0 (hcanon p0 (by simp))
    (fun p hp => hcanon p (by simp [hp]))
  have hne : compare_versions (rest.foldl latestStep p0) x ≠ -1 := by
    rcases List.mem_cons.mp hx with h | h
    · rw [h]; exact hfold.1
    · exact hfold.2 x h
  rcases compare_versions_range (rest.foldl latestStep p0) x with h | h | h
  · exact absurd h hne
  · right; exact h
  · left; exact h

/-- Witness for claim C4 on the list `[1, 2]`. -/
theorem claim_C4_witness :
    compare_versions ([(⟨"0", "2", "1"⟩ : Pkg)].foldl latestStep ⟨"0", "1", "1"⟩)
        ⟨"0", "1", "1"⟩ = 1 ∨
    compare_versions ([(⟨"0", "2", "1"⟩ : Pkg)].foldl latestStep ⟨"0", "1", "1"⟩)
        ⟨"0", "1", "1"⟩ = 0 :=
  (claim_C4 ⟨"0", "1", "1"⟩ [⟨"0", "2", "1"⟩]).2 (by decide)
    ⟨"0", "1", "1"⟩ (by simp)

/-- The retained record of the C5 counterexample group: version 2 of file
`f.pkg.tar.zst`. -/
def cexKeepC5 : PkgD :=
  { pkgname := some "n", arch := some "x", pkgver := some "2",
    relver := some "1", filename := some "f.pkg.tar.zst",
    location := some "/cache" }

/-- The deleted record of the C5 counterexample group: same filename and
location as `cexKeepC5` but version 1. -/
def cexDelC5 : PkgD :=
  { pkgname := some "n", arch := some "x", pkgver := some "1",
    relver := some "1", filename := some "f.pkg.tar.zst",
    location := some "/cache" }

/-- Counterexample to claim C5: in a two-member group whose members share
filename and location (the claim's notion of "the same file") but differ
in a version field, the member with the same file as the latest is
nevertheless placed in the deletion set, because the code compares whole
dict values, not filename-plus-location identity. -/
theorem claim_C5_cex :
    find_latest_package [cexKeepC5, cexDelC5] = some cexKeepC5 ∧
    find_packages_to_delete [(("n", "x"), [cexKeepC5, cexDelC5])] = [cexDelC5] ∧
    cexDelC5.filename = cexKeepC5.filename ∧
    cexDelC5.location = cexKeepC5.location := by decide

/-- Claim C5 (amended): for a group with more than one member and a
determined latest, the deletion contribution is exactly the members that
are not dict-value-equal to the latest (so any member equal to the latest
in every field is kept, regardless of file identity); groups with at most
one member contribute nothing. -/
theorem claim_C5 :
    (∀ (pkgs : List PkgD) (latest : PkgD), pkgs.length > 1 →
      find_latest_package pkgs = some latest →
      groupDeletions pkgs = pkgs.filter (fun p => decide (p ≠ latest))) ∧
    (∀ pkgs : List PkgD, pkgs.length ≤ 1 → groupDeletions pkgs = []) := by
  constructor
  · intro pkgs latest hlen hlatest
    unfold groupDeletions
    rw [if_pos hlen, hlatest]
  · intro pkgs hlen
    unfold groupDeletions
    rw [if_neg (by omega)]

/-- Witness for claim C5 on the concrete two-member group. -/
theorem claim_C5_witness :
    groupDeletions [cexKeepC5, cexDelC5] =
      [cexKeepC5, cexDelC5].filter (fun p => decide (p ≠ cexKeepC5)) :=
  claim_C5.1 [cexKeepC5, cexDelC5] cexKeepC5 (by decide) (by decide)

/-- Claim C6: if no member of a group has both a usable version and a
usable release (under the `pkgver`/`version` and `relver`/`pkgrel`
fallbacks), `find_latest_package` returns `None` and the group contributes
no deletions; both functions are total, so no exception is possible. -/
theorem claim_C6 (pkgs : List PkgD)
    (h : ∀ p ∈ pkgs, ¬(truthy (pyOrOpt p.pkgver p.version) = true ∧
        truthy (pyOrOpt p.relver p.pkgrel) = true)) :
    find_latest_package pkgs = none ∧ groupDeletions pkgs = [] := by
  have hmv : ∀ p ∈ pkgs, mkValid p = none := by
    intro p hp
    have hcond : ¬((truthy (pyOrOpt p.pkgver p.version) &&
        truthy (pyOrOpt p.relver p.pkgrel)) = true) := by
      rw [Bool.and_eq_true]
      exact h p hp
    simp only [mkValid]
    rw [if_neg hcond]
  have hfm : pkgs.filterMap mkValid = [] := List.filterMap_eq_nil_iff.mpr hmv
  have hnone : find_latest_package pkgs = none := by
    unfold find_latest_package
    rw [hfm]
  refine ⟨hnone, ?_⟩
  unfold groupDeletions
  by_cases hlen : pkgs.length > 1
  · rw [if_pos hlen, hnone]
  · rw [if_neg hlen]

/-- Witness for claim C6 on a group of two version-less records. -/
theorem claim_C6_witness :
    find_latest_package
        [{ name := some "a", arch := some "x" },
         { name := some "a", arch := some "x", pkgver := some "1" }] = none ∧
    groupDeletions
        [{ name := some "a", arch := some "x" },
         { name := some "a", arch := some "x", pkgver := some "1" }] = [] :=
  claim_C6 _ (by decide)

/-- Claim C7: a filename that does not end in `.pkg.tar.zst`, or whose stem
does not split on `-` into at least 4 segments, or whose second-to-last
segment fails `^\d+(\.\d+)?$`, parses to no record (`none`); the parser is
a total function, so nothing is raised. -/
theorem claim_C7 (s : String)
    (h : endsWithZst s.data = false ∨
      (splitChar '-' ((basenameC s.data).take ((basenameC s.data).length - 12))).length < 4 ∨
      relOk ((splitChar '-' ((basenameC s.data).take ((basenameC s.data).length - 12))).getD
        ((splitChar '-' ((basenameC s.data).take ((basenameC s.data).length - 12))).length - 2) [])
        = false) :
    parse_filename s = none :=
  parseCore_none s.data h

/-- Witness for claim C7 at the spec's example `notapackage.txt`. -/
theorem claim_C7_witness : parse_filename "notapackage.txt" = none :=
  claim_C7 "notapackage.txt" (Or.inl (by decide))

/-- Counterexample to claim C8: a record without an `epoch` key makes
`compare_versions` raise `KeyError('epoch')` instead of treating the
missing field as the empty string. -/
theorem claim_C8_cex :
    compare_versions_dict { pkgver := some "1", relver := some "1" }
      { epoch := some "0", pkgver := some "1", relver := some "1" } =
      Except.error "epoch" := rfl

/-- Claim C8 (amended): `compare_versions` is total and never throws for
any two records whose `epoch`, `pkgver` and `relver` keys are all present,
and always returns one of `-1`, `0`, `1`; a missing key raises `KeyError`
rather than being treated as the empty string. -/
theorem claim_C8 (p q : PkgD) (e1 v1 r1 e2 v2 r2 : String)
    (hp1 : p.epoch = some e1) (hp2 : p.pkgver = some v1) (hp3 : p.relver = some r1)
    (hq1 : q.epoch = some e2) (hq2 : q.pkgver = some v2) (hq3 : q.relver = some r2) :
    compare_versions_dict p q =
      Except.ok (compare_versions ⟨e1, v1, r1⟩ ⟨e2, v2, r2⟩) ∧
    (compare_versions ⟨e1, v1, r1⟩ ⟨e2, v2, r2⟩ = -1 ∨
     compare_versions ⟨e1, v1, r1⟩ ⟨e2, v2, r2⟩ = 0 ∨
     compare_versions ⟨e1, v1, r1⟩ ⟨e2, v2, r2⟩ = 1) :=
  ⟨compare_versions_dict_ok p q e1 v1 r1 e2 v2 r2 hp1 hp2 hp3 hq1 hq2 hq3,
   compare_versions_range ⟨e1, v1, r1⟩ ⟨e2, v2, r2⟩⟩

/-- Witness for claim C8 on two fully-populated records. -/
theorem claim_C8_witness :
    compare_versions_dict
        { epoch := some "0", pkgver := some "1", relver := some "1" }
        { epoch := some "0", pkgver := some "2", relver := some "1" } =
      Except.ok (compare_versions ⟨"0", "1", "1"⟩ ⟨"0", "2", "1"⟩) ∧
    (compare_versions ⟨"0", "1", "1"⟩ ⟨"0", "2", "1"⟩ = -1 ∨
     compare_versions ⟨"0", "1", "1"⟩ ⟨"0", "2", "1"⟩ = 0 ∨
     compare_versions ⟨"0", "1", "1"⟩ ⟨"0", "2", "1"⟩ = 1) :=
  claim_C8
    { epoch := some "0", pkgver := some "1", relver := some "1" }
    { epoch := some "0", pkgver := some "2", relver := some "1" }
    "0" "1" "1" "0" "2" "1" rfl rfl rfl rfl rfl rfl

/-- Claim C9: grouping partitions its input: the group stored under each
key is exactly the order-preserving sublist of records bearing that key,
keys are unique, the skipped count is the number of key-less records, and
group sizes plus skipped records account for the whole input. -/
theorem claim_C9 (pkgs : List PkgD) :
    (∀ k, lookupGroup (group_packages_by_name_and_arch pkgs).1 k =
      pkgs.filter (fun p => decide (pkgKey p = some k))) ∧
    ((group_packages_by_name_and_arch pkgs).1.map Prod.fst).Nodup ∧
    (group_packages_by_name_and_arch pkgs).2 =
      (pkgs.filter (fun p => decide (pkgKey p = none))).length ∧
    sumSizes (group_packages_by_name_and_arch pkgs).1 +
      (group_packages_by_name_and_arch pkgs).2 = pkgs.length := by
  unfold group_packages_by_name_and_arch
  refine ⟨?_, ?_, ?_, ?_⟩
  · intro k
    rw [groupFold_lookup k pkgs ([], 0)]
    simp [lookupGroup]
  · exact groupFold_nodup pkgs ([], 0) (by simp)
  · rw [groupFold_skip pkgs ([], 0)]
    simp
  · rw [groupFold_total pkgs ([], 0)]
    simp [sumSizes]

/-- Claim C10: a non-`None` result of `find_latest` or
`find_latest_package` is an element of the input list, and every record in
the deletion set of `find_packages_to_delete` is drawn from one of the
input groups. -/
theorem claim_C10 :
    (∀ (l : List Pkg) (p : Pkg), find_latest l = some p → p ∈ l) ∧
    (∀ (l : List PkgD) (p : PkgD), find_latest_package l = some p → p ∈ l) ∧
    (∀ (g : GroupMap) (q : PkgD), q ∈ find_packages_to_delete g →
      ∃ k pkgs, (k, pkgs) ∈ g ∧ q ∈ pkgs) := by
  refine ⟨?_, ?_, ?_⟩
  · intro l p h
    cases l with
    | nil => cases h
    | cons p0 rest =>
      unfold find_latest at h
      injection h with h2
      show p ∈ p0 :: rest
      rw [← h2]
      show rest.foldl latestStep p0 ∈ p0 :: rest
      rcases foldl_latest_mem rest p0 with h3 | h3
      · rw [h3]; simp
      · simp [h3]
  · intro l p h
    exact find_latest_package_mem l p h
  · intro g q h
    unfold find_packages_to_delete at h
    obtain ⟨e, he, hq⟩ := List.mem_flatMap.mp h
    exact ⟨e.1, e.2, by simpa using he, groupDeletions_subset e.2 q hq⟩

/-- Witness for claim C10 on a singleton list. -/
theorem claim_C10_witness : (⟨"0", "1", "1"⟩ : Pkg) ∈ [(⟨"0", "1", "1"⟩ : Pkg)] :=
  claim_C10.1 [⟨"0", "1", "1"⟩] ⟨"0", "1", "1"⟩ (by decide)
